import Mathlib

/-!
Verification of the dining-philosophers subsystem (`src/3.go`) and the
worker-statistics routines (`src/unnamed/part_001`) of the repository.

The Go code is shallowly embedded:
* the ring construction loop of `main` (lines 81-94) becomes `mkPhilosophers`,
  parametrized by the agent count in place of the constant `numPhilosophers = 5`;
* the philosopher goroutines, the fork mutexes, the `done` channel and the
  coordinator (`main`) become an interleaving transition system `Step` over
  `SysState`; fork ownership is derived from each philosopher's control point,
  and a `Lock` on a mutex is a step guarded by that fork being free;
* the statistics routines become pure functions over `List Worker`, with Go
  `float64` values embedded as exact rationals (`ℚ`); the concurrent variant is
  sequentialized, which is faithful because its goroutines write to pairwise
  disjoint slice slots and are joined (`wg.Wait`) before any slot is read.
-/

namespace DiningPhilosophers

/-- The constant `numPhilosophers = 5` of `src/3.go` (lines 11-13). -/
def numPhilosophers : Nat := 5

/-- The `Philosopher` struct of `src/3.go` (lines 23-26): an id and the indices
of its left and right forks (the struct stores pointers into the `forks` array;
we store the array indices). -/
structure Philosopher where
  id : Nat
  leftFork : Nat
  rightFork : Nat
deriving DecidableEq, Repr

/-- The ring construction loop of `main` (`src/3.go` lines 87-94), parametrized
by the agent count `n`: philosopher `i` gets `leftFork = forks[i]` and
`rightFork = forks[(i+1) % n]`.  The loop performs no validation of `n`. -/
def mkPhilosophers (n : Nat) : List Philosopher :=
  (List.range n).map fun i => { id := i, leftFork := i, rightFork := (i + 1) % n }

/-- The acquisition order of `Philosopher.eat` (`src/3.go` lines 59-65): an even
id locks the left fork first, then the right; an odd id locks the right fork
first, then the left. -/
def acquireOrder (ph : Philosopher) : Nat × Nat :=
  if ph.id % 2 = 0 then (ph.leftFork, ph.rightFork) else (ph.rightFork, ph.leftFork)

theorem length_mkPhilosophers (n : Nat) : (mkPhilosophers n).length = n := by
  simp [mkPhilosophers]

theorem mkPhilosophers_getElem (n i : Nat) (hi : i < n) :
    (mkPhilosophers n)[i]? = some { id := i, leftFork := i, rightFork := (i + 1) % n } := by
  simp [mkPhilosophers, List.getElem?_map, List.getElem?_range hi]

theorem mem_mkPhilosophers (n : Nat) (ph : Philosopher) :
    ph ∈ mkPhilosophers n ↔ ∃ i < n, ph = { id := i, leftFork := i, rightFork := (i + 1) % n } := by
  simp only [mkPhilosophers, List.mem_map, List.mem_range]
  constructor
  · rintro ⟨i, hi, rfl⟩; exact ⟨i, hi, rfl⟩
  · rintro ⟨i, hi, rfl⟩; exact ⟨i, hi, rfl⟩

/-- Closed form for the "previous index on the ring": `(f + n - 1) % n`. -/
theorem pred_mod_closed (n f : Nat) (hn : 0 < n) (hf : f < n) :
    (f + n - 1) % n = if f = 0 then n - 1 else f - 1 := by
  rcases Nat.eq_zero_or_pos f with h0 | h1
  · subst h0
    simp [Nat.mod_eq_of_lt (Nat.sub_lt hn Nat.one_pos)]
  · have hne : f ≠ 0 := Nat.pos_iff_ne_zero.mp h1
    simp only [hne, if_false]
    have h : f + n - 1 = (f - 1) + n := by omega
    rw [h, Nat.add_mod_right, Nat.mod_eq_of_lt (by omega)]

/-- On the ring of size `n`, `i` is the predecessor of `f` exactly when
`(i + 1) % n = f`. -/
theorem succ_mod_eq_iff (n f i : Nat) (hn : 0 < n) (hf : f < n) (hi : i < n) :
    (i + 1) % n = f ↔ i = (f + n - 1) % n := by
  rw [pred_mod_closed n f hn hf]
  rcases Nat.lt_or_ge (i + 1) n with h | h
  · rw [Nat.mod_eq_of_lt h]
    rcases Nat.eq_zero_or_pos f with h0 | h1
    · subst h0; rw [if_pos rfl]; omega
    · rw [if_neg (Nat.pos_iff_ne_zero.mp h1)]; omega
  · have hin : i + 1 = n := by omega
    rw [hin, Nat.mod_self]
    rcases Nat.eq_zero_or_pos f with h0 | h1
    · subst h0; rw [if_pos rfl]; omega
    · rw [if_neg (Nat.pos_iff_ne_zero.mp h1)]; omega

/-- On a ring of size at least 2, an index differs from its successor. -/
theorem ring_next_ne (n i : Nat) (hn : 2 ≤ n) (hi : i < n) : i ≠ (i + 1) % n := by
  rcases Nat.lt_or_ge (i + 1) n with h | h
  · rw [Nat.mod_eq_of_lt h]; omega
  · have hin : i + 1 = n := by omega
    rw [hin, Nat.mod_self]; omega

/-- C2: an even-id philosopher locks its left fork (ring index `id`) first and
its right fork (ring index `(id+1) % n`) second, an odd-id philosopher locks in
the reverse order; numerically the even order is (lower, higher) except at the
wrap index `n-1`, where the order is `(n-1, 0)` — ring-adjacent, not numerically
increasing. -/
theorem acquisition_order (n : Nat) (hn : 2 ≤ n) (ph : Philosopher)
    (hmem : ph ∈ mkPhilosophers n) :
    (ph.id % 2 = 0 →
      acquireOrder ph = (ph.leftFork, ph.rightFork) ∧
      acquireOrder ph = (ph.id, (ph.id + 1) % n) ∧
      (ph.id + 1 < n → (acquireOrder ph).1 < (acquireOrder ph).2) ∧
      (ph.id = n - 1 → acquireOrder ph = (n - 1, 0))) ∧
    (ph.id % 2 = 1 →
      acquireOrder ph = (ph.rightFork, ph.leftFork) ∧
      acquireOrder ph = ((ph.id + 1) % n, ph.id) ∧
      (ph.id + 1 < n → (acquireOrder ph).2 < (acquireOrder ph).1) ∧
      (ph.id = n - 1 → acquireOrder ph = (0, n - 1))) := by
  obtain ⟨i, hi, rfl⟩ := (mem_mkPhilosophers n ph).mp hmem
  have hwrap : (n - 1 + 1) % n = 0 := by
    have h : n - 1 + 1 = n := by omega
    rw [h, Nat.mod_self]
  constructor
  · intro heven
    have he : i % 2 = 0 := heven
    refine ⟨by simp [acquireOrder, he], by simp [acquireOrder, he], ?_, ?_⟩
    · intro hlt
      simp [acquireOrder, he, Nat.mod_eq_of_lt hlt]
    · intro htop
      have : i = n - 1 := htop
      subst this
      simp [acquireOrder, he, hwrap]
  · intro hodd
    have ho : i % 2 = 1 := hodd
    have hne : ¬ i % 2 = 0 := by omega
    refine ⟨by simp [acquireOrder, hne], by simp [acquireOrder, hne], ?_, ?_⟩
    · intro hlt
      simp [acquireOrder, hne, Nat.mod_eq_of_lt hlt]
    · intro htop
      have : i = n - 1 := htop
      subst this
      simp [acquireOrder, hne, hwrap]

theorem acquisition_order_witness :
    acquireOrder { id := 4, leftFork := 4, rightFork := 0 } = (4, 0) :=
  ((acquisition_order 5 (by norm_num)
      { id := 4, leftFork := 4, rightFork := 0 } (by decide)).1 rfl).2.2.2 rfl

/-- C4: the builder binds philosopher `i`'s left fork to `i` and right fork to
`(i+1) % n`; each fork `f` is referenced by exactly the two philosophers `f`
(as left fork) and `(f + n - 1) % n` (as right fork); the two forks of a
philosopher are distinct. -/
theorem ring_topology (n : Nat) (hn : 2 ≤ n) :
    (mkPhilosophers n).length = n ∧
    (∀ i, i < n → (mkPhilosophers n)[i]? =
        some { id := i, leftFork := i, rightFork := (i + 1) % n }) ∧
    (∀ f, f < n →
      ((Finset.range n).filter fun i => i = f ∨ (i + 1) % n = f)
          = {f, (f + n - 1) % n} ∧
      (({f, (f + n - 1) % n} : Finset Nat).card = 2)) ∧
    (∀ ph ∈ mkPhilosophers n, ph.leftFork ≠ ph.rightFork) := by
  have hn0 : 0 < n := by omega
  refine ⟨length_mkPhilosophers n, fun i hi => mkPhilosophers_getElem n i hi, ?_, ?_⟩
  · intro f hf
    have hprev : (f + n - 1) % n < n := Nat.mod_lt _ hn0
    constructor
    · ext i
      simp only [Finset.mem_filter, Finset.mem_range, Finset.mem_insert,
        Finset.mem_singleton]
      constructor
      · rintro ⟨hi, hcase | hcase⟩
        · exact Or.inl hcase
        · exact Or.inr ((succ_mod_eq_iff n f i hn0 hf hi).mp hcase)
      · rintro (rfl | rfl)
        · exact ⟨hf, Or.inl rfl⟩
        · exact ⟨hprev, Or.inr ((succ_mod_eq_iff n f _ hn0 hf hprev).mpr rfl)⟩
    · have hne : f ≠ (f + n - 1) % n := by
        rw [pred_mod_closed n f hn0 hf]
        rcases Nat.eq_zero_or_pos f with h0 | h1
        · subst h0; rw [if_pos rfl]; omega
        · rw [if_neg (Nat.pos_iff_ne_zero.mp h1)]; omega
      rw [Finset.card_insert_of_not_mem (by simpa using hne), Finset.card_singleton]
  · intro ph hmem
    obtain ⟨i, hi, rfl⟩ := (mem_mkPhilosophers n ph).mp hmem
    exact ring_next_ne n i hn hi

theorem ring_topology_witness : (mkPhilosophers 5).length = 5 :=
  (ring_topology 5 (by norm_num)).1

/-- C5 counterexample: ring construction never fails — the construction loop of
`main` contains no validation of the agent count and no error path at all.  At
agent count 1 (below the claimed threshold of 2) it returns a normal result, a
one-element ring whose philosopher has both fork references equal, instead of
failing with a configuration error; at agent count 0 it returns the empty
ring. -/
theorem ring_construction_no_failure_counterexample :
    mkPhilosophers 1 = [{ id := 0, leftFork := 0, rightFork := 0 }] ∧
    mkPhilosophers 0 = [] :=
  ⟨rfl, rfl⟩

/-- C5 (amended): ring construction performs no validation and never fails: for
every agent count `n`, including `n < 2`, the builder returns a list of `n`
philosophers wired as a ring; the agent count of the run is the compile-time
constant `numPhilosophers = 5`, and no configuration-error path exists in the
code. -/
theorem ring_construction_total (n : Nat) :
    (mkPhilosophers n).length = n ∧
    numPhilosophers = 5 ∧
    ∀ i, i < n → (mkPhilosophers n)[i]? =
        some { id := i, leftFork := i, rightFork := (i + 1) % n } :=
  ⟨length_mkPhilosophers n, rfl, fun i hi => mkPhilosophers_getElem n i hi⟩

theorem ring_construction_total_witness :
    (mkPhilosophers 2)[0]? = some { id := 0, leftFork := 0, rightFork := 1 } :=
  (ring_construction_total 2).2.2 0 (by norm_num)

/-! ## The concurrent system of `src/3.go`

Each philosopher goroutine runs `dine`: at the top of every loop iteration it
reads the `done` channel (`select` with a `default` branch: when `done` is
closed the `<-done` case is taken and the goroutine returns after printing its
"finished" line; otherwise the `default` branch runs `think()` then `eat()`).
`eat` locks the two fork mutexes in the parity-dependent order, eats, then
unlocks both.  The coordinator (`main`) sleeps, closes `done` (once — a second
`close` would panic, so the code closes exactly once), and `wg.Wait()`s until
every goroutine has called `wg.Done()` on return.

Control points of one goroutine:
* `thinking`      — at the top of the loop, about to read the `done` channel;
* `acquiringFirst`  — past the check (committed to `think(); eat()`), holding
  nothing, blocked on (or about to run) the first `Lock`;
* `acquiringSecond` — holding its first fork, blocked on the second `Lock`;
* `eating`        — holding both forks;
* `terminated`    — returned (after the one "finished" print and `wg.Done()`).

Fork ownership is derived from the control points; a `Lock` is enabled exactly
when no goroutine owns the fork, which is the mutex semantics. -/

inductive Phase where
  | thinking
  | acquiringFirst
  | acquiringSecond
  | eating
  | terminated
deriving DecidableEq, Repr

inductive CoordPhase where
  | running
  | cancelled
  | returned
deriving DecidableEq, Repr

/-- Global state of the system with `n` philosophers: the control point of each
goroutine (indices `≥ n` are unused), whether `done` has been closed, the
coordinator's control point, and the number of "finished" lines printed by each
philosopher. -/
structure SysState (n : Nat) where
  phase : Nat → Phase
  done : Bool
  coord : CoordPhase
  finished : Nat → Nat

/-- Philosopher `p`'s left fork index (`forks[i]`, `src/3.go` line 92). -/
def leftForkIdx (p : Nat) : Nat := p

/-- Philosopher `p`'s right fork index (`forks[(i+1) % n]`, line 93). -/
def rightForkIdx (n p : Nat) : Nat := (p + 1) % n

/-- The fork philosopher `p` locks first (`eat`, lines 59-65): left if `p` is
even, right if odd. -/
def firstFork (n p : Nat) : Nat :=
  if p % 2 = 0 then leftForkIdx p else rightForkIdx n p

/-- The fork philosopher `p` locks second. -/
def secondFork (n p : Nat) : Nat :=
  if p % 2 = 0 then rightForkIdx n p else leftForkIdx p

/-- Philosopher `p` owns fork `f`: it is past the first `Lock` and `f` is its
first fork, or past both `Lock`s and `f` is either of its forks. -/
def holdsFork (n : Nat) (s : SysState n) (p f : Nat) : Prop :=
  p < n ∧
    ((s.phase p = Phase.acquiringSecond ∧ f = firstFork n p) ∨
     (s.phase p = Phase.eating ∧ (f = firstFork n p ∨ f = secondFork n p)))

instance (n : Nat) (s : SysState n) (p f : Nat) : Decidable (holdsFork n s p f) := by
  unfold holdsFork
  exact inferInstance

/-- Fork `f`'s mutex is unlocked: no goroutine owns it. -/
def freeFork (n : Nat) (s : SysState n) (f : Nat) : Prop :=
  ∀ p, ¬ holdsFork n s p f

/-- One interleaving step of the system. -/
inductive Step (n : Nat) : SysState n → SysState n → Prop where
  /-- `dine` loop top with `done` closed: the `<-done` case is taken (Go's
  `select` runs `default` only when no other case is ready), the philosopher
  prints its "finished" line and returns. -/
  | checkCancel (s : SysState n) (p : Nat) (hp : p < n)
      (hph : s.phase p = Phase.thinking) (hd : s.done = true) :
      Step n s { s with phase := Function.update s.phase p Phase.terminated,
                        finished := Function.update s.finished p (s.finished p + 1) }
  /-- `dine` loop top with `done` open: the `default` branch is taken and the
  philosopher runs `think()`, committing to the `eat()` call. -/
  | startCycle (s : SysState n) (p : Nat) (hp : p < n)
      (hph : s.phase p = Phase.thinking) (hd : s.done = false) :
      Step n s { s with phase := Function.update s.phase p Phase.acquiringFirst }
  /-- The first `Lock` of `eat` returns: enabled only while the fork's mutex is
  unlocked. -/
  | lockFirst (s : SysState n) (p : Nat) (hp : p < n)
      (hph : s.phase p = Phase.acquiringFirst)
      (hfree : freeFork n s (firstFork n p)) :
      Step n s { s with phase := Function.update s.phase p Phase.acquiringSecond }
  /-- The second `Lock` of `eat` returns. -/
  | lockSecond (s : SysState n) (p : Nat) (hp : p < n)
      (hph : s.phase p = Phase.acquiringSecond)
      (hfree : freeFork n s (secondFork n p)) :
      Step n s { s with phase := Function.update s.phase p Phase.eating }
  /-- The philosopher finishes eating and unlocks both forks (lines 72-73),
  returning to the top of the loop. -/
  | finishEat (s : SysState n) (p : Nat) (hp : p < n)
      (hph : s.phase p = Phase.eating) :
      Step n s { s with phase := Function.update s.phase p Phase.thinking }
  /-- The coordinator's sleep elapses and it closes `done` (line 108). -/
  | coordCancel (s : SysState n) (hc : s.coord = CoordPhase.running)
      (hd : s.done = false) :
      Step n s { s with done := true, coord := CoordPhase.cancelled }
  /-- `wg.Wait()` returns: every goroutine has called `wg.Done()`. -/
  | coordReturn (s : SysState n) (hc : s.coord = CoordPhase.cancelled)
      (hall : ∀ p, p < n → s.phase p = Phase.terminated) :
      Step n s { s with coord := CoordPhase.returned }

/-- The initial state: goroutines spawned at the loop top, `done` open,
coordinator sleeping, no "finished" lines printed. -/
def initState (n : Nat) : SysState n :=
  { phase := fun _ => Phase.thinking, done := false,
    coord := CoordPhase.running, finished := fun _ => 0 }

/-- Reachability from the initial state. -/
def Reachable (n : Nat) (s : SysState n) : Prop :=
  Relation.ReflTransGen (Step n) (initState n) s

/-- All philosophers have returned. -/
def allTerminated (n : Nat) (s : SysState n) : Prop :=
  ∀ p, p < n → s.phase p = Phase.terminated

/-- A circular-wait deadlock: a nonempty set `C` of philosophers, each holding
its first fork and blocked on its second fork, which is owned by a member of
`C` — so nobody in `C` can ever proceed. -/
def DeadlockSet (n : Nat) (s : SysState n) (C : Finset Nat) : Prop :=
  C.Nonempty ∧
    ∀ p ∈ C, p < n ∧ s.phase p = Phase.acquiringSecond ∧
      ∃ q ∈ C, holdsFork n s q (secondFork n p)

/-- In a circular wait, the fork blocking `p` is the first fork of the member
`q` owning it (a member of the set holds exactly its first fork). -/
theorem deadlock_succ (n : Nat) (s : SysState n) (C : Finset Nat)
    (hC : DeadlockSet n s C) (p : Nat) (hp : p ∈ C) :
    ∃ q ∈ C, q < n ∧ secondFork n p = firstFork n q := by
  obtain ⟨hne, hall⟩ := hC
  obtain ⟨hpn, hph, q, hq, hhold⟩ := hall p hp
  obtain ⟨hqn, hcase⟩ := hhold
  have hqph := (hall q hq).2.1
  rcases hcase with ⟨_, hf⟩ | ⟨heat, _⟩
  · exact ⟨q, hq, hqn, hf⟩
  · simp [hqph] at heat

/-- No state of the system — reachable or not — admits a circular-wait
deadlock: the even/odd acquisition order makes a cycle of first-fork owners
impossible. -/
theorem no_deadlockSet_aux (n : Nat) (hn : 2 ≤ n) (s : SysState n) (C : Finset Nat) :
    ¬ DeadlockSet n s C := by
  intro hC
  have hodd : ∀ p ∈ C, p % 2 = 0 := by
    intro p hp
    by_contra hne
    have ho : p % 2 = 1 := by omega
    obtain ⟨q, hq, hqn, heq⟩ := deadlock_succ n s C hC p hp
    have hpn : p < n := (hC.2 p hp).1
    unfold secondFork firstFork leftForkIdx rightForkIdx at heq
    rw [if_neg (by omega : ¬ p % 2 = 0)] at heq
    by_cases hqe : q % 2 = 0
    · rw [if_pos hqe] at heq
      omega
    · rw [if_neg hqe] at heq
      have hq1 : q % 2 = 1 := by omega
      rcases Nat.lt_or_ge (q + 1) n with h | h
      · rw [Nat.mod_eq_of_lt h] at heq; omega
      · have hq2 : q + 1 = n := by omega
        rw [hq2, Nat.mod_self] at heq; omega
  have hmem : ∀ p ∈ C, p = n - 1 ∧ (0 : Nat) ∈ C := by
    intro p hp
    have hpe := hodd p hp
    obtain ⟨q, hq, hqn, heq⟩ := deadlock_succ n s C hC p hp
    have hpn : p < n := (hC.2 p hp).1
    have hqe := hodd q hq
    unfold secondFork firstFork leftForkIdx rightForkIdx at heq
    rw [if_pos hpe, if_pos hqe] at heq
    rcases Nat.lt_or_ge (p + 1) n with h | h
    · rw [Nat.mod_eq_of_lt h] at heq
      omega
    · have hpn1 : p + 1 = n := by omega
      rw [hpn1, Nat.mod_self] at heq
      have hq0 : q = 0 := heq.symm
      subst hq0
      exact ⟨by omega, hq⟩
  obtain ⟨p0, hp0⟩ := hC.1
  obtain ⟨_, h0C⟩ := hmem p0 hp0
  obtain ⟨h0top, _⟩ := hmem 0 h0C
  omega

/-- Weight of a control point, decreasing along a philosopher's remaining
work once `done` is closed. -/
def phaseWeight : Phase → Nat
  | Phase.terminated => 0
  | Phase.thinking => 1
  | Phase.eating => 2
  | Phase.acquiringSecond => 3
  | Phase.acquiringFirst => 4

/-- Total remaining work of the system. -/
def sysMeasure (n : Nat) (s : SysState n) : Nat :=
  ∑ p in Finset.range n, phaseWeight (s.phase p)

theorem sysMeasure_update_lt (n : Nat) (s s' : SysState n) (p : Nat) (hp : p < n)
    (ph : Phase) (hs' : s'.phase = Function.update s.phase p ph)
    (hw : phaseWeight ph < phaseWeight (s.phase p)) :
    sysMeasure n s' < sysMeasure n s := by
  unfold sysMeasure
  rw [hs']
  apply Finset.sum_lt_sum
  · intro i _
    by_cases hip : i = p
    · subst hip
      rw [Function.update_same]
      exact Nat.le_of_lt hw
    · rw [Function.update_noteq hip]
  · exact ⟨p, Finset.mem_range.mpr hp, by rw [Function.update_same]; exact hw⟩

/-- After `done` is closed, any state with a live philosopher has an enabled
step that strictly decreases the remaining work. -/
theorem exists_progress_step (n : Nat) (hn : 2 ≤ n) (s : SysState n)
    (hd : s.done = true) (hnt : ¬ allTerminated n s) :
    ∃ s', Step n s s' ∧ s'.done = true ∧ sysMeasure n s' < sysMeasure n s := by
  by_cases hE : ∃ p, p < n ∧ s.phase p = Phase.eating
  · obtain ⟨p, hp, hph⟩ := hE
    refine ⟨_, Step.finishEat s p hp hph, hd, ?_⟩
    apply sysMeasure_update_lt n s _ p hp Phase.thinking rfl
    rw [hph]; decide
  by_cases hS : ∃ p, p < n ∧ s.phase p = Phase.acquiringSecond
  · have hfree : ∃ p, p < n ∧ s.phase p = Phase.acquiringSecond ∧
        freeFork n s (secondFork n p) := by
      by_contra hcon
      push_neg at hcon
      apply no_deadlockSet_aux n hn s
        ((Finset.range n).filter fun p => s.phase p = Phase.acquiringSecond)
      constructor
      · obtain ⟨p, hp, hph⟩ := hS
        exact ⟨p, by simp [Finset.mem_filter, Finset.mem_range, hp, hph]⟩
      · intro p hpC
        have hp : p < n ∧ s.phase p = Phase.acquiringSecond := by
          simpa [Finset.mem_filter, Finset.mem_range] using hpC
        refine ⟨hp.1, hp.2, ?_⟩
        have hnotfree := hcon p hp.1 hp.2
        unfold freeFork at hnotfree
        push_neg at hnotfree
        obtain ⟨q, hq⟩ := hnotfree
        refine ⟨q, ?_, hq⟩
        obtain ⟨hqn, hcase⟩ := hq
        rcases hcase with ⟨hq2, _⟩ | ⟨hqe, _⟩
        · simp [Finset.mem_filter, Finset.mem_range, hqn, hq2]
        · exact absurd ⟨q, hqn, hqe⟩ hE
    obtain ⟨p, hp, hph, hfr⟩ := hfree
    refine ⟨_, Step.lockSecond s p hp hph hfr, hd, ?_⟩
    apply sysMeasure_update_lt n s _ p hp Phase.eating rfl
    rw [hph]; decide
  by_cases hF : ∃ p, p < n ∧ s.phase p = Phase.acquiringFirst
  · obtain ⟨p, hp, hph⟩ := hF
    have hfr : freeFork n s (firstFork n p) := by
      intro q hq
      obtain ⟨hqn, hcase⟩ := hq
      rcases hcase with ⟨hq2, _⟩ | ⟨hqe, _⟩
      · exact hS ⟨q, hqn, hq2⟩
      · exact hE ⟨q, hqn, hqe⟩
    refine ⟨_, Step.lockFirst s p hp hph hfr, hd, ?_⟩
    apply sysMeasure_update_lt n s _ p hp Phase.acquiringSecond rfl
    rw [hph]; decide
  · unfold allTerminated at hnt
    push_neg at hnt
    obtain ⟨p, hp, hph⟩ := hnt
    have hth : s.phase p = Phase.thinking := by
      cases hcase : s.phase p
      case thinking => rfl
      case acquiringFirst => exact absurd ⟨p, hp, hcase⟩ hF
      case acquiringSecond => exact absurd ⟨p, hp, hcase⟩ hS
      case eating => exact absurd ⟨p, hp, hcase⟩ hE
      case terminated => exact absurd hcase hph
    refine ⟨_, Step.checkCancel s p hp hth hd, hd, ?_⟩
    apply sysMeasure_update_lt n s _ p hp Phase.terminated rfl
    rw [hth]; decide

/-- From any state with `done` closed, a finite schedule drives every
philosopher to `terminated` (induction on the remaining-work measure). -/
theorem termination_path_aux (n : Nat) (hn : 2 ≤ n) :
    ∀ m, ∀ s : SysState n, sysMeasure n s < m → s.done = true →
      ∃ s', Relation.ReflTransGen (Step n) s s' ∧ allTerminated n s' := by
  intro m
  induction m with
  | zero => intro s h _; exact absurd h (Nat.not_lt_zero _)
  | succ m ih =>
    intro s hm hd
    by_cases hterm : allTerminated n s
    · exact ⟨s, Relation.ReflTransGen.refl, hterm⟩
    · obtain ⟨s1, hstep, hd1, hlt⟩ := exists_progress_step n hn s hd hterm
      obtain ⟨s', hpath, hterm2⟩ := ih s1 (by omega) hd1
      exact ⟨s', Relation.ReflTransGen.head hstep hpath, hterm2⟩

/-- Mutual exclusion: no fork has two owners. -/
def MutexInv (n : Nat) (s : SysState n) : Prop :=
  ∀ f p q, holdsFork n s p f → holdsFork n s q f → p = q

theorem holdsFork_update (n : Nat) (s t : SysState n) (p0 : Nat) (ph : Phase)
    (ht : t.phase = Function.update s.phase p0 ph) (q f : Nat) (hq : q ≠ p0) :
    holdsFork n t q f ↔ holdsFork n s q f := by
  unfold holdsFork
  rw [ht, Function.update_noteq hq]

theorem holdsFork_update_none (n : Nat) (s t : SysState n) (p0 : Nat) (ph : Phase)
    (hph : ph ≠ Phase.acquiringSecond ∧ ph ≠ Phase.eating)
    (ht : t.phase = Function.update s.phase p0 ph) (r f : Nat)
    (hr : holdsFork n t r f) : r ≠ p0 ∧ holdsFork n s r f := by
  have hrp : r ≠ p0 := by
    intro h
    subst h
    obtain ⟨hrn, hcase⟩ := hr
    rw [ht] at hcase
    rcases hcase with ⟨h1, _⟩ | ⟨h1, _⟩
    · rw [Function.update_same] at h1; exact hph.1 h1
    · rw [Function.update_same] at h1; exact hph.2 h1
  exact ⟨hrp, (holdsFork_update n s t p0 ph ht r f hrp).mp hr⟩

theorem mutex_step {n : Nat} {s t : SysState n} (hstep : Step n s t)
    (hm : MutexInv n s) : MutexInv n t := by
  cases hstep with
  | checkCancel p0 hp0 hph hd =>
      intro f p q hp hq
      obtain ⟨_, hp'⟩ := holdsFork_update_none n s _ p0 Phase.terminated
        (by simp) rfl p f hp
      obtain ⟨_, hq'⟩ := holdsFork_update_none n s _ p0 Phase.terminated
        (by simp) rfl q f hq
      exact hm f p q hp' hq'
  | startCycle p0 hp0 hph hd =>
      intro f p q hp hq
      obtain ⟨_, hp'⟩ := holdsFork_update_none n s _ p0 Phase.acquiringFirst
        (by simp) rfl p f hp
      obtain ⟨_, hq'⟩ := holdsFork_update_none n s _ p0 Phase.acquiringFirst
        (by simp) rfl q f hq
      exact hm f p q hp' hq'
  | finishEat p0 hp0 hph =>
      intro f p q hp hq
      obtain ⟨_, hp'⟩ := holdsFork_update_none n s _ p0 Phase.thinking
        (by simp) rfl p f hp
      obtain ⟨_, hq'⟩ := holdsFork_update_none n s _ p0 Phase.thinking
        (by simp) rfl q f hq
      exact hm f p q hp' hq'
  | lockFirst p0 hp0 hph hfree =>
      -- after the first `Lock`, `p0` owns exactly its first fork, which the
      -- guard certifies was free
      have hat : ∀ f, holdsFork n
          { s with phase := Function.update s.phase p0 Phase.acquiringSecond } p0 f →
          f = firstFork n p0 := by
        intro f hf
        obtain ⟨_, hcase⟩ := hf
        rcases hcase with ⟨_, h2⟩ | ⟨h1, _⟩
        · exact h2
        · simp at h1
      intro f p q hp hq
      by_cases hpp : p = p0 <;> by_cases hqq : q = p0
      · rw [hpp, hqq]
      · have hf := hat f (hpp ▸ hp)
        have hq' := (holdsFork_update n s _ p0 Phase.acquiringSecond rfl q f hqq).mp hq
        exact absurd hq' (by rw [hf]; exact hfree q)
      · have hf := hat f (hqq ▸ hq)
        have hp' := (holdsFork_update n s _ p0 Phase.acquiringSecond rfl p f hpp).mp hp
        exact absurd hp' (by rw [hf]; exact hfree p)
      · exact hm f p q
          ((holdsFork_update n s _ p0 Phase.acquiringSecond rfl p f hpp).mp hp)
          ((holdsFork_update n s _ p0 Phase.acquiringSecond rfl q f hqq).mp hq)
  | lockSecond p0 hp0 hph hfree =>
      -- `p0` now owns its two forks: the first it already owned, the second
      -- the guard certifies was free
      have hat : ∀ f, holdsFork n
          { s with phase := Function.update s.phase p0 Phase.eating } p0 f →
          f = firstFork n p0 ∨ f = secondFork n p0 := by
        intro f hf
        obtain ⟨_, hcase⟩ := hf
        rcases hcase with ⟨h1, _⟩ | ⟨_, h2⟩
        · simp at h1
        · exact h2
      have hself : holdsFork n s p0 (firstFork n p0) := ⟨hp0, Or.inl ⟨hph, rfl⟩⟩
      intro f p q hp hq
      by_cases hpp : p = p0 <;> by_cases hqq : q = p0
      · rw [hpp, hqq]
      · have hq' := (holdsFork_update n s _ p0 Phase.eating rfl q f hqq).mp hq
        rcases hat f (hpp ▸ hp) with hf | hf
        · rw [hf] at hq'
          exact hpp.trans (hm (firstFork n p0) p0 q hself hq')
        · exact absurd hq' (by rw [hf]; exact hfree q)
      · have hp' := (holdsFork_update n s _ p0 Phase.eating rfl p f hpp).mp hp
        rcases hat f (hqq ▸ hq) with hf | hf
        · rw [hf] at hp'
          exact ((hm (firstFork n p0) p0 p hself hp').symm).trans hqq.symm
        · exact absurd hp' (by rw [hf]; exact hfree p)
      · exact hm f p q
          ((holdsFork_update n s _ p0 Phase.eating rfl p f hpp).mp hp)
          ((holdsFork_update n s _ p0 Phase.eating rfl q f hqq).mp hq)
  | coordCancel hc hd =>
      intro f p q hp hq
      exact hm f p q hp hq
  | coordReturn hc hall =>
      intro f p q hp hq
      exact hm f p q hp hq

theorem mutex_reachable {n : Nat} {s : SysState n} (h : Reachable n s) :
    MutexInv n s := by
  unfold Reachable at h
  induction h with
  | refl =>
      intro f p q hp hq
      obtain ⟨_, hc⟩ := hp
      rcases hc with ⟨h1, _⟩ | ⟨h1, _⟩ <;> cases h1
  | tail hab hbc ih => exact mutex_step hbc ih

/-- Coordinator invariant: `done` is closed exactly once the coordinator has
passed its `close(done)`, and it returns only once all goroutines are
terminated. -/
def CoordInv (n : Nat) (s : SysState n) : Prop :=
  (s.coord = CoordPhase.running ↔ s.done = false) ∧
  (s.coord = CoordPhase.returned → allTerminated n s)

theorem coord_step {n : Nat} {s t : SysState n} (hstep : Step n s t)
    (hc : CoordInv n s) : CoordInv n t := by
  cases hstep with
  | checkCancel p0 hp0 hph hd =>
      refine ⟨hc.1, ?_⟩
      intro hret
      exact absurd ((hc.2 hret) p0 hp0) (by rw [hph]; simp)
  | startCycle p0 hp0 hph hd =>
      refine ⟨hc.1, ?_⟩
      intro hret
      exact absurd ((hc.2 hret) p0 hp0) (by rw [hph]; simp)
  | lockFirst p0 hp0 hph hfree =>
      refine ⟨hc.1, ?_⟩
      intro hret
      exact absurd ((hc.2 hret) p0 hp0) (by rw [hph]; simp)
  | lockSecond p0 hp0 hph hfree =>
      refine ⟨hc.1, ?_⟩
      intro hret
      exact absurd ((hc.2 hret) p0 hp0) (by rw [hph]; simp)
  | finishEat p0 hp0 hph =>
      refine ⟨hc.1, ?_⟩
      intro hret
      exact absurd ((hc.2 hret) p0 hp0) (by rw [hph]; simp)
  | coordCancel hcr hd =>
      exact ⟨by simp, by simp⟩
  | coordReturn hcr hall =>
      refine ⟨?_, fun _ => hall⟩
      have hdone : s.done = true := by
        cases hb : s.done
        · exact absurd (hc.1.mpr hb) (by rw [hcr]; simp)
        · rfl
      simp [hdone]

theorem coord_reachable {n : Nat} {s : SysState n} (h : Reachable n s) :
    CoordInv n s := by
  unfold Reachable at h
  induction h with
  | refl => exact ⟨by simp [initState], by simp [initState]⟩
  | tail hab hbc ih => exact coord_step hbc ih

/-- Each philosopher's count of "finished" lines is 0 before termination and
1 from the moment of termination on. -/
def FinishedInv (n : Nat) (s : SysState n) : Prop :=
  ∀ p, s.finished p = if s.phase p = Phase.terminated then 1 else 0

theorem finished_step {n : Nat} {s t : SysState n} (hstep : Step n s t)
    (hf : FinishedInv n s) : FinishedInv n t := by
  cases hstep with
  | checkCancel p0 hp0 hph hd =>
      intro p
      by_cases hpp : p = p0
      · subst hpp
        simp [hf p, hph]
      · simp [Function.update_noteq hpp, hf p]
  | startCycle p0 hp0 hph hd =>
      intro p
      by_cases hpp : p = p0
      · subst hpp
        simp [hf p, hph]
      · simp [Function.update_noteq hpp, hf p]
  | lockFirst p0 hp0 hph hfree =>
      intro p
      by_cases hpp : p = p0
      · subst hpp
        simp [hf p, hph]
      · simp [Function.update_noteq hpp, hf p]
  | lockSecond p0 hp0 hph hfree =>
      intro p
      by_cases hpp : p = p0
      · subst hpp
        simp [hf p, hph]
      · simp [Function.update_noteq hpp, hf p]
  | finishEat p0 hp0 hph =>
      intro p
      by_cases hpp : p = p0
      · subst hpp
        simp [hf p, hph]
      · simp [Function.update_noteq hpp, hf p]
  | coordCancel hcr hd => exact hf
  | coordReturn hcr hall => exact hf

theorem finished_reachable {n : Nat} {s : SysState n} (h : Reachable n s) :
    FinishedInv n s := by
  unfold Reachable at h
  induction h with
  | refl => intro p; rfl
  | tail hab hbc ih => exact finished_step hbc ih

/-- The state right after the coordinator closes `done`. -/
def cancelledInit (n : Nat) : SysState n :=
  { initState n with done := true, coord := CoordPhase.cancelled }

/-- A philosopher that has returned owns nothing. -/
theorem holdsFork_not_terminated {n : Nat} {t : SysState n} {p : Nat}
    (h : t.phase p = Phase.terminated) (f : Nat) : ¬ holdsFork n t p f := by
  intro hh
  obtain ⟨_, hc⟩ := hh
  rcases hc with ⟨h1, _⟩ | ⟨h1, _⟩ <;> rw [h] at h1 <;> cases h1

/-- How one step can change a single philosopher's control point: either it is
untouched, or it moves one edge along
`thinking → acquiringFirst → acquiringSecond → eating → thinking`, or it moves
`thinking → terminated` when `done` is closed. -/
theorem phil_local_step {n : Nat} {s t : SysState n} (hstep : Step n s t)
    (p : Nat) :
    t.phase p = s.phase p ∨
    (s.phase p = Phase.thinking ∧ s.done = true ∧ t.phase p = Phase.terminated) ∨
    (s.phase p = Phase.thinking ∧ s.done = false ∧ t.phase p = Phase.acquiringFirst) ∨
    (s.phase p = Phase.acquiringFirst ∧ t.phase p = Phase.acquiringSecond) ∨
    (s.phase p = Phase.acquiringSecond ∧ t.phase p = Phase.eating) ∨
    (s.phase p = Phase.eating ∧ t.phase p = Phase.thinking) := by
  cases hstep with
  | checkCancel p0 hp0 hph hd =>
      by_cases hpp : p = p0
      · subst hpp
        exact Or.inr (Or.inl ⟨hph, hd, by simp⟩)
      · exact Or.inl (by simp [Function.update_noteq hpp])
  | startCycle p0 hp0 hph hd =>
      by_cases hpp : p = p0
      · subst hpp
        exact Or.inr (Or.inr (Or.inl ⟨hph, hd, by simp⟩))
      · exact Or.inl (by simp [Function.update_noteq hpp])
  | lockFirst p0 hp0 hph hfree =>
      by_cases hpp : p = p0
      · subst hpp
        exact Or.inr (Or.inr (Or.inr (Or.inl ⟨hph, by simp⟩)))
      · exact Or.inl (by simp [Function.update_noteq hpp])
  | lockSecond p0 hp0 hph hfree =>
      by_cases hpp : p = p0
      · subst hpp
        exact Or.inr (Or.inr (Or.inr (Or.inr (Or.inl ⟨hph, by simp⟩))))
      · exact Or.inl (by simp [Function.update_noteq hpp])
  | finishEat p0 hp0 hph =>
      by_cases hpp : p = p0
      · subst hpp
        exact Or.inr (Or.inr (Or.inr (Or.inr (Or.inr ⟨hph, by simp⟩))))
      · exact Or.inl (by simp [Function.update_noteq hpp])
  | coordCancel hc hd => exact Or.inl rfl
  | coordReturn hc hall => exact Or.inl rfl

/-- C1: for every agent count `n ≥ 2` under the asymmetric even/odd
acquisition-ordering rule, no reachable state of the system is a circular-wait
deadlock, and once the cancellation signal is set the system always reaches
global termination: a finite schedule to the all-`terminated` state exists from
every cancelled state, and every step taken after cancellation strictly
decreases the total remaining work (except the single coordinator-return
step), so no infinite post-cancellation run exists and every philosopher
eventually reaches `terminated` provided steps keep being taken. -/
theorem no_deadlock_and_global_termination (n : Nat) (hn : 2 ≤ n)
    (s : SysState n) (hreach : Reachable n s) :
    (∀ C, ¬ DeadlockSet n s C) ∧
    (s.done = true →
      (∃ t, Relation.ReflTransGen (Step n) s t ∧ allTerminated n t) ∧
      (∀ t, Step n s t → sysMeasure n t < sysMeasure n s ∨
        (s.coord = CoordPhase.cancelled ∧ t.coord = CoordPhase.returned ∧
          sysMeasure n t = sysMeasure n s))) := by
  refine ⟨fun C => no_deadlockSet_aux n hn s C, fun hd => ⟨?_, ?_⟩⟩
  · exact termination_path_aux n hn (sysMeasure n s + 1) s (by omega) hd
  · intro t hstep
    cases hstep with
    | checkCancel p0 hp0 hph hd2 =>
        left
        apply sysMeasure_update_lt n s _ p0 hp0 Phase.terminated rfl
        rw [hph]; decide
    | startCycle p0 hp0 hph hd2 => rw [hd] at hd2; cases hd2
    | lockFirst p0 hp0 hph hfree =>
        left
        apply sysMeasure_update_lt n s _ p0 hp0 Phase.acquiringSecond rfl
        rw [hph]; decide
    | lockSecond p0 hp0 hph hfree =>
        left
        apply sysMeasure_update_lt n s _ p0 hp0 Phase.eating rfl
        rw [hph]; decide
    | finishEat p0 hp0 hph =>
        left
        apply sysMeasure_update_lt n s _ p0 hp0 Phase.thinking rfl
        rw [hph]; decide
    | coordCancel hcr hd2 => rw [hd] at hd2; cases hd2
    | coordReturn hcr hall => exact Or.inr ⟨hcr, rfl, rfl⟩

theorem no_deadlock_and_global_termination_witness :
    (∀ C, ¬ DeadlockSet 2 (cancelledInit 2) C) ∧
    (∃ t, Relation.ReflTransGen (Step 2) (cancelledInit 2) t ∧
      allTerminated 2 t) :=
  let h := no_deadlock_and_global_termination 2 (by norm_num) (cancelledInit 2)
    (Relation.ReflTransGen.single (Step.coordCancel (initState 2) rfl rfl))
  ⟨h.1, (h.2 rfl).1⟩

/-- C3: mutual exclusion — in every reachable state each fork has at most one
owner, and a goroutine comes to own a fork it did not own only when that
fork's mutex was free (forks change hands only through `Lock`/`Unlock` of the
owning goroutine). -/
theorem mutual_exclusion (n : Nat) (s : SysState n) (hreach : Reachable n s)
    (f : Nat) :
    ((Finset.range n).filter fun p => holdsFork n s p f).card ≤ 1 ∧
    (∀ t p g, Step n s t → ¬ holdsFork n s p g → holdsFork n t p g →
      freeFork n s g) := by
  have hm := mutex_reachable hreach
  constructor
  · apply Finset.card_le_one.mpr
    intro a ha b hb
    rw [Finset.mem_filter] at ha hb
    exact hm f a b ha.2 hb.2
  · intro t p g hstep hnot hnew
    cases hstep with
    | checkCancel p0 hp0 hph hd =>
        exact absurd (holdsFork_update_none n s _ p0 Phase.terminated
          (by simp) rfl p g hnew).2 hnot
    | startCycle p0 hp0 hph hd =>
        exact absurd (holdsFork_update_none n s _ p0 Phase.acquiringFirst
          (by simp) rfl p g hnew).2 hnot
    | finishEat p0 hp0 hph =>
        exact absurd (holdsFork_update_none n s _ p0 Phase.thinking
          (by simp) rfl p g hnew).2 hnot
    | lockFirst p0 hp0 hph hfree =>
        by_cases hpp : p = p0
        · have hg : g = firstFork n p0 := by
            obtain ⟨_, hcase⟩ := hpp ▸ hnew
            rcases hcase with ⟨_, h2⟩ | ⟨h1, _⟩
            · exact h2
            · simp at h1
          exact hg ▸ hfree
        · exact absurd ((holdsFork_update n s _ p0 Phase.acquiringSecond
            rfl p g hpp).mp hnew) hnot
    | lockSecond p0 hp0 hph hfree =>
        by_cases hpp : p = p0
        · have hcase2 : g = firstFork n p0 ∨ g = secondFork n p0 := by
            obtain ⟨_, hcase⟩ := hpp ▸ hnew
            rcases hcase with ⟨h1, _⟩ | ⟨_, h2⟩
            · simp at h1
            · exact h2
          rcases hcase2 with hg | hg
          · have hold : holdsFork n s p0 g := ⟨hp0, Or.inl ⟨hph, hg⟩⟩
            exact absurd (hpp.symm ▸ hold) hnot
          · exact hg ▸ hfree
        · exact absurd ((holdsFork_update n s _ p0 Phase.eating
            rfl p g hpp).mp hnew) hnot
    | coordCancel hc hd => exact absurd hnew hnot
    | coordReturn hc hall => exact absurd hnew hnot

theorem mutual_exclusion_witness :
    ((Finset.range 2).filter fun p => holdsFork 2 (initState 2) p 0).card ≤ 1 :=
  (mutual_exclusion 2 (initState 2) Relation.ReflTransGen.refl 0).1

/-- C6: the cancellation signal is read only at the top of the `dine` loop:
a terminated philosopher stays terminated and acquires nothing further;
`terminated` is entered only from `thinking` and only with `done` closed;
a philosopher that is mid-cycle (`acquiringFirst`/`acquiringSecond`/`eating`)
only progresses along its acquire–eat–release cycle, never to `terminated`;
and its mid-cycle transitions are enabled identically whatever the value of
the `done` flag — there is no interrupt path out of a blocked `Lock`. -/
theorem cancellation_only_at_loop_top (n : Nat) (s t : SysState n) (p : Nat)
    (hstep : Step n s t) :
    (s.phase p = Phase.terminated →
      t.phase p = Phase.terminated ∧ ∀ f, ¬ holdsFork n t p f) ∧
    (s.phase p ≠ Phase.terminated → t.phase p = Phase.terminated →
      s.phase p = Phase.thinking ∧ s.done = true) ∧
    (s.phase p = Phase.acquiringFirst →
      t.phase p = Phase.acquiringFirst ∨ t.phase p = Phase.acquiringSecond) ∧
    (s.phase p = Phase.acquiringSecond →
      t.phase p = Phase.acquiringSecond ∨ t.phase p = Phase.eating) ∧
    (s.phase p = Phase.eating →
      t.phase p = Phase.eating ∨ t.phase p = Phase.thinking) ∧
    (∀ b : Bool, p < n →
      (s.phase p = Phase.acquiringFirst → freeFork n s (firstFork n p) →
        Step n { s with done := b }
          { s with done := b,
                   phase := Function.update s.phase p Phase.acquiringSecond }) ∧
      (s.phase p = Phase.acquiringSecond → freeFork n s (secondFork n p) →
        Step n { s with done := b }
          { s with done := b,
                   phase := Function.update s.phase p Phase.eating }) ∧
      (s.phase p = Phase.eating →
        Step n { s with done := b }
          { s with done := b,
                   phase := Function.update s.phase p Phase.thinking })) := by
  have hloc := phil_local_step hstep p
  refine ⟨?_, ?_, ?_, ?_, ?_, ?_⟩
  · intro hterm
    have ht : t.phase p = Phase.terminated := by
      rcases hloc with h | ⟨h1, _, _⟩ | ⟨h1, _, _⟩ | ⟨h1, _⟩ | ⟨h1, _⟩ | ⟨h1, _⟩
      · rw [h, hterm]
      all_goals rw [hterm] at h1; cases h1
    exact ⟨ht, fun f => holdsFork_not_terminated ht f⟩
  · intro hnterm hterm
    rcases hloc with h | ⟨h1, h2, _⟩ | ⟨h1, h2, h3⟩ | ⟨h1, h3⟩ | ⟨h1, h3⟩ | ⟨h1, h3⟩
    · rw [h] at hterm
      exact absurd hterm hnterm
    · exact ⟨h1, h2⟩
    all_goals rw [hterm] at h3; cases h3
  · intro hph
    rcases hloc with h | ⟨h1, _, _⟩ | ⟨h1, _, _⟩ | ⟨_, h3⟩ | ⟨h1, _⟩ | ⟨h1, _⟩
    · exact Or.inl (by rw [h, hph])
    · rw [hph] at h1; cases h1
    · rw [hph] at h1; cases h1
    · exact Or.inr h3
    · rw [hph] at h1; cases h1
    · rw [hph] at h1; cases h1
  · intro hph
    rcases hloc with h | ⟨h1, _, _⟩ | ⟨h1, _, _⟩ | ⟨h1, _⟩ | ⟨_, h3⟩ | ⟨h1, _⟩
    · exact Or.inl (by rw [h, hph])
    · rw [hph] at h1; cases h1
    · rw [hph] at h1; cases h1
    · rw [hph] at h1; cases h1
    · exact Or.inr h3
    · rw [hph] at h1; cases h1
  · intro hph
    rcases hloc with h | ⟨h1, _, _⟩ | ⟨h1, _, _⟩ | ⟨h1, _⟩ | ⟨h1, _⟩ | ⟨_, h3⟩
    · exact Or.inl (by rw [h, hph])
    · rw [hph] at h1; cases h1
    · rw [hph] at h1; cases h1
    · rw [hph] at h1; cases h1
    · rw [hph] at h1; cases h1
    · exact Or.inr h3
  · intro b hp
    refine ⟨?_, ?_, ?_⟩
    · intro hph hfree
      exact Step.lockFirst { s with done := b } p hp hph hfree
    · intro hph hfree
      exact Step.lockSecond { s with done := b } p hp hph hfree
    · intro hph
      exact Step.finishEat { s with done := b } p hp hph

theorem cancellation_only_at_loop_top_witness :
    (cancelledInit 2).phase 0 = Phase.thinking ∧ (cancelledInit 2).done = true :=
  (cancellation_only_at_loop_top 2 (cancelledInit 2) _ 0
      (Step.checkCancel (cancelledInit 2) 0 (by norm_num) rfl rfl)).2.1
    (by simp [cancelledInit, initState])
    (by simp [cancelledInit, initState])

/-- C7: the coordinator's `done` flag is closed exactly once — the only
transition that sets it is the coordinator's single running→cancelled step,
and once set it is never reset — and `main` returns (`wg.Wait`) only once
`done` is closed and every philosopher has terminated. -/
theorem coordinator_contract (n : Nat) (s : SysState n)
    (hreach : Reachable n s) :
    (s.coord = CoordPhase.running ↔ s.done = false) ∧
    (∀ t, Step n s t → s.done = true → t.done = true) ∧
    (∀ t, Step n s t → s.done = false → t.done = true →
      s.coord = CoordPhase.running ∧ t.coord = CoordPhase.cancelled) ∧
    (s.coord = CoordPhase.returned → s.done = true ∧ allTerminated n s) := by
  have hc := coord_reachable hreach
  refine ⟨hc.1, ?_, ?_, ?_⟩
  · intro t hstep hd
    cases hstep <;> first | rfl | exact hd
  · intro t hstep hdf hdt
    cases hstep with
    | coordCancel hcr hd => exact ⟨hcr, rfl⟩
    | checkCancel p0 hp0 hph hd => simp [hdf] at hdt
    | startCycle p0 hp0 hph hd => simp [hdf] at hdt
    | lockFirst p0 hp0 hph hfree => simp [hdf] at hdt
    | lockSecond p0 hp0 hph hfree => simp [hdf] at hdt
    | finishEat p0 hp0 hph => simp [hdf] at hdt
    | coordReturn hcr hall => simp [hdf] at hdt
  · intro hret
    refine ⟨?_, hc.2 hret⟩
    cases hb : s.done
    · exact absurd (hc.1.mpr hb) (by rw [hret]; simp)
    · rfl

theorem coordinator_contract_witness :
    (initState 2).coord = CoordPhase.running ↔ (initState 2).done = false :=
  (coordinator_contract 2 (initState 2) Relation.ReflTransGen.refl).1

/-- C8: in every reachable state each philosopher's count of "finished" lines
is 0 before its termination and 1 from the moment of termination on — exactly
one over its lifetime — and when `main` has returned all `n` philosophers have
printed their one "finished" line. -/
theorem finished_exactly_once (n : Nat) (s : SysState n)
    (hreach : Reachable n s) :
    (∀ p, s.finished p = if s.phase p = Phase.terminated then 1 else 0) ∧
    (s.coord = CoordPhase.returned →
      (∀ p, p < n → s.finished p = 1) ∧
      (∑ p in Finset.range n, s.finished p) = n) := by
  have hfin := finished_reachable hreach
  have hc := coord_reachable hreach
  refine ⟨hfin, ?_⟩
  intro hret
  have hall := hc.2 hret
  have h1 : ∀ p, p < n → s.finished p = 1 := by
    intro p hp
    rw [hfin p, hall p hp]
    simp
  refine ⟨h1, ?_⟩
  rw [Finset.sum_congr rfl fun p hp => h1 p (Finset.mem_range.mp hp)]
  simp

theorem finished_exactly_once_witness :
    (initState 2).finished 0 =
      if (initState 2).phase 0 = Phase.terminated then 1 else 0 :=
  (finished_exactly_once 2 (initState 2) Relation.ReflTransGen.refl).1 0

end DiningPhilosophers

namespace WorkerStats

/-- The `Worker` struct of `src/unnamed/part_001` (lines 10-15).  The Go
`float64` salary and all derived `float64` quantities are embedded as exact
rationals; the counterexample inputs below use only values on which `float64`
arithmetic is exact, so the embedding agrees with the source there. -/
structure Worker where
  name : String
  position : String
  age : Int
  salary : ℚ
deriving DecidableEq, Repr

/-- `calculateAverageAge` (lines 18-37): total age and count of the workers
matching `position`; 0 when none matches, else the quotient. -/
def calculateAverageAge (workers : List Worker) (position : String) : ℚ :=
  let acc := workers.foldl
    (fun (acc : Int × Int) worker =>
      if worker.position = position then (acc.1 + worker.age, acc.2 + 1) else acc)
    (0, 0)
  if acc.2 = 0 then 0 else (acc.1 : ℚ) / (acc.2 : ℚ)

/-- The helper `abs` of the source (lines 61-67). -/
def abs (x : ℚ) : ℚ := if x < 0 then -x else x

/-- `findMaxSalary` (lines 40-57): maximum salary over the workers matching
`position` whose age is within 2 of `avgAge`; the running maximum starts
at 0. -/
def findMaxSalary (workers : List Worker) (position : String) (avgAge : ℚ) : ℚ :=
  workers.foldl
    (fun maxSalary worker =>
      if worker.position = position ∧ abs ((worker.age : ℚ) - avgAge) ≤ 2 then
        (if maxSalary < worker.salary then worker.salary else maxSalary)
      else maxSalary)
    0

/-- Go slicing `workers[startIndex:endIndex]`. -/
def slice (workers : List Worker) (startIndex endIndex : Nat) : List Worker :=
  (workers.drop startIndex).take (endIndex - startIndex)

/-- The per-chunk average ages of `processWithoutConcurrency` (lines 83-97):
3 chunks of `len/3` workers, the last chunk extended to the end of the list. -/
def chunkAvgAges (workers : List Worker) (position : String) : List ℚ :=
  let countSize := 3
  let subsetsSize := workers.length / countSize
  (List.range countSize).map fun i =>
    let startIndex := i * subsetsSize
    let endIndex := if i = countSize - 1 then workers.length
                    else (i + 1) * subsetsSize
    calculateAverageAge (slice workers startIndex endIndex) position

/-- The merge of the per-chunk averages (lines 100-112): sum the strictly
positive chunk averages, count them, divide; 0 when no chunk average is
positive. -/
def mergeAvgAges (avgAgeResults : List ℚ) : ℚ :=
  let acc := avgAgeResults.foldl
    (fun (acc : ℚ × Nat) avg => if 0 < avg then (acc.1 + avg, acc.2 + 1) else acc)
    (0, 0)
  if 0 < acc.2 then acc.1 / (acc.2 : ℚ) else 0

/-- `processWithoutConcurrency` (lines 69-144) reduced to the values it
prints — the merged average age and merged maximum salary; the timing and
printing side effects are dropped. -/
def processWithoutConcurrency (workers : List Worker) (position : String) :
    ℚ × ℚ :=
  let countSize := 3
  let subsetsSize := workers.length / countSize
  let avgAgeResults := (List.range countSize).map fun i =>
    let startIndex := i * subsetsSize
    let endIndex := if i = countSize - 1 then workers.length
                    else (i + 1) * subsetsSize
    calculateAverageAge (slice workers startIndex endIndex) position
  let accA := avgAgeResults.foldl
    (fun (acc : ℚ × Nat) avg => if 0 < avg then (acc.1 + avg, acc.2 + 1) else acc)
    (0, 0)
  let avgAge := if 0 < accA.2 then accA.1 / (accA.2 : ℚ) else 0
  let maxSalaryResults := (List.range countSize).map fun i =>
    let startIndex := i * subsetsSize
    let endIndex := if i = countSize - 1 then workers.length
                    else (i + 1) * subsetsSize
    findMaxSalary (slice workers startIndex endIndex) position avgAge
  let maxSalary := maxSalaryResults.foldl
    (fun maxSalary m => if maxSalary < m then m else maxSalary) 0
  (avgAge, maxSalary)

/-- `processWithConcurrency` (lines 147-234) reduced to the values it prints.
The goroutines are sequentialized: goroutine `i` writes only slot `i` of the
results slice it is handed (the slots are pairwise disjoint) and `wg.Wait()`
precedes every read of the slices, so after the join the slices hold exactly
the values a sequential execution of the loop bodies produces. -/
def processWithConcurrency (workers : List Worker) (position : String) :
    ℚ × ℚ :=
  let numGoroutines := 3
  let chunkSize := workers.length / numGoroutines
  let avgAgeResults := (List.range numGoroutines).map fun i =>
    let startIndex := i * chunkSize
    let endIndex := if i = numGoroutines - 1 then workers.length
                    else (i + 1) * chunkSize
    calculateAverageAge (slice workers startIndex endIndex) position
  let accA := avgAgeResults.foldl
    (fun (acc : ℚ × Nat) avg => if 0 < avg then (acc.1 + avg, acc.2 + 1) else acc)
    (0, 0)
  let avgAge := if 0 < accA.2 then accA.1 / (accA.2 : ℚ) else 0
  let maxSalaryResults := (List.range numGoroutines).map fun i =>
    let startIndex := i * chunkSize
    let endIndex := if i = numGoroutines - 1 then workers.length
                    else (i + 1) * chunkSize
    findMaxSalary (slice workers startIndex endIndex) position avgAge
  let maxSalary := maxSalaryResults.foldl
    (fun maxSalary m => if maxSalary < m then m else maxSalary) 0
  (avgAge, maxSalary)

/-- C9: the sequential and the concurrent statistics routines compute the same
pair (merged average age, merged maximum salary) on every input: they cut the
list into the same 3 chunks (`len/3`, `len/3`, remainder), run the same
per-chunk computations — the goroutines of the concurrent variant write to
pairwise disjoint result slots and are joined before any read, so their
sequentialization is exact — and merge with the same folds. -/
theorem process_equivalence (workers : List Worker) (position : String) :
    processWithConcurrency workers position =
      processWithoutConcurrency workers position := rfl

theorem foldl_pos_merge (l : List ℚ) : ∀ (a : ℚ) (c : Nat),
    l.foldl (fun (acc : ℚ × Nat) avg =>
        if 0 < avg then (acc.1 + avg, acc.2 + 1) else acc) (a, c) =
      (a + (l.filter fun x => 0 < x).sum,
       c + (l.filter fun x => 0 < x).length) := by
  induction l with
  | nil => intro a c; simp
  | cons x xs ih =>
      intro a c
      rw [List.foldl_cons]
      show List.foldl _ (if 0 < x then (a + x, c + 1) else (a, c)) xs = _
      by_cases hx : (0 : ℚ) < x
      · rw [if_pos hx, ih]
        have hfc : (x :: xs).filter (fun y => 0 < y) =
            x :: xs.filter (fun y => 0 < y) := by
          simp [List.filter_cons, hx]
        rw [hfc, List.sum_cons, List.length_cons]
        simp only [Prod.mk.injEq]
        refine ⟨by ring, by omega⟩
      · rw [if_neg hx, ih]
        have hfc : (x :: xs).filter (fun y => 0 < y) =
            xs.filter (fun y => 0 < y) := by
          simp [List.filter_cons, hx]
        rw [hfc]

/-- The merge step equals the unweighted arithmetic mean of the strictly
positive entries. -/
theorem mergeAvgAges_eq (avgs : List ℚ) :
    mergeAvgAges avgs =
      if (avgs.filter fun x => 0 < x) = [] then 0
      else (avgs.filter fun x => 0 < x).sum /
           (((avgs.filter fun x => 0 < x).length : ℚ)) := by
  unfold mergeAvgAges
  rw [foldl_pos_merge]
  by_cases h : (avgs.filter fun x => 0 < x) = []
  · simp [h]
  · have hl : 0 < (avgs.filter fun x => 0 < x).length :=
      List.length_pos.mpr h
    simp only [Nat.zero_add, zero_add, if_pos hl, if_neg h]

/-- Workers refuting agreement between the chunked merge and the plain
average: positions put two age-10 "A" workers in chunk 1, one age-40 "A"
worker in chunk 2 and no "A" worker in chunk 3, so the merged average is
(10 + 40) / 2 = 25 while the plain average is (10 + 10 + 40) / 3 = 20. -/
def exampleWorkers : List Worker :=
  [{ name := "a", position := "A", age := 10, salary := 0 },
   { name := "b", position := "A", age := 10, salary := 0 },
   { name := "c", position := "A", age := 40, salary := 0 },
   { name := "d", position := "B", age := 50, salary := 100 },
   { name := "e", position := "B", age := 50, salary := 100 },
   { name := "f", position := "B", age := 50, salary := 100 }]

/-- C10: in both routines the merged average age is the unweighted arithmetic
mean of the strictly positive per-chunk averages — every chunk with a positive
average counts once, whatever number of matching workers it contains, and
chunks with average 0 are skipped — and consequently the merged value differs
from `calculateAverageAge` over the whole list on `exampleWorkers`. -/
theorem merged_average_unweighted (workers : List Worker) (position : String) :
    ((processWithoutConcurrency workers position).1 =
        (if ((chunkAvgAges workers position).filter fun x => 0 < x) = [] then 0
         else ((chunkAvgAges workers position).filter fun x => 0 < x).sum /
              ((((chunkAvgAges workers position).filter fun x => 0 < x).length : ℚ))) ∧
     (processWithConcurrency workers position).1 =
        (if ((chunkAvgAges workers position).filter fun x => 0 < x) = [] then 0
         else ((chunkAvgAges workers position).filter fun x => 0 < x).sum /
              ((((chunkAvgAges workers position).filter fun x => 0 < x).length : ℚ)))) ∧
    (processWithoutConcurrency exampleWorkers "A").1 ≠
      calculateAverageAge exampleWorkers "A" := by
  refine ⟨⟨?_, ?_⟩, ?_⟩
  · show mergeAvgAges (chunkAvgAges workers position) = _
    exact mergeAvgAges_eq _
  · show mergeAvgAges (chunkAvgAges workers position) = _
    exact mergeAvgAges_eq _
  · have hch : chunkAvgAges exampleWorkers "A" =
        [calculateAverageAge (slice exampleWorkers 0 2) "A",
         calculateAverageAge (slice exampleWorkers 2 4) "A",
         calculateAverageAge (slice exampleWorkers 4 6) "A"] := rfl
    have c1 : calculateAverageAge (slice exampleWorkers 0 2) "A" = 10 := by
      simp only [slice, exampleWorkers, calculateAverageAge, List.drop, List.take,
        List.foldl, String.reduceEq]
      norm_num
    have c2 : calculateAverageAge (slice exampleWorkers 2 4) "A" = 40 := by
      simp only [slice, exampleWorkers, calculateAverageAge, List.drop, List.take,
        List.foldl, String.reduceEq]
      norm_num
    have c3 : calculateAverageAge (slice exampleWorkers 4 6) "A" = 0 := by
      simp only [slice, exampleWorkers, calculateAverageAge, List.drop, List.take,
        List.foldl, String.reduceEq]
      norm_num
    have h1 : (processWithoutConcurrency exampleWorkers "A").1 = 25 := by
      show mergeAvgAges (chunkAvgAges exampleWorkers "A") = 25
      rw [hch, c1, c2, c3]
      simp only [mergeAvgAges, List.foldl]
      norm_num
    have h2 : calculateAverageAge exampleWorkers "A" = 20 := by
      simp only [calculateAverageAge, exampleWorkers, List.foldl_cons,
        List.foldl_nil, String.reduceEq]
      norm_num
    rw [h1, h2]
    norm_num

end WorkerStats
